import Mathlib

/-!
Verification of the ECIES / ECDSA core (`src/encryption.js`).

The module under verification is the glue code composing: secp256k1 key
agreement (library `elliptic`), AES-256-CBC, SHA-256/SHA-512 and
HMAC-SHA256 (node `crypto`).  The glue code itself — key-derivation
split, hex padding, MAC construction and checking, constant-time
comparison, the encrypt/decrypt/sign/verify pipelines — is embedded
here directly from the source.  The external cryptographic libraries
are not part of the repository; they are embedded as parameter
structures (`Curve`, `SymPrims`, `SigPrims`) whose operations are
opaque functions and whose documented contracts (Diffie-Hellman
commutativity, AES round-trip, digest lengths, ECDSA validity) are
separate `…Laws` structures assumed by the theorems and discharged by
a concrete lawful instantiation for the witnesses.

Representation choices:
* a JS `Buffer` is a `List Nat` of byte values;
* a JS string is identified with its UTF-8 byte sequence (the
  `Content` type records the string/buffer distinction exactly as the
  code's `wasString` flag does);
* the hex-string transport of `CipherObject` fields is elided — hex
  encoding of whole bytes is a bijection — except in `getHexFromBN`,
  whose exact padding logic on hex digit strings is embedded;
* thrown JS `Error`s become `Except CryptoError` results, with one
  constructor per distinct throw site.
-/

/-- Byte sequences: the embedding of a node `Buffer` (one `Nat` per byte). -/
abbrev Buffer := List Nat

/-- Content passed to `encryptECIES`/`signECDSA`: a JS value that is either a
string (kept as its UTF-8 bytes) or a `Buffer`. -/
inductive Content where
  | str (s : Buffer)
  | buf (b : Buffer)
deriving DecidableEq

/-- Embedding of `Buffer.from(content)`: a string yields its UTF-8 bytes, a
buffer is copied as-is. -/
def Content.toBuffer : Content → Buffer
  | .str s => s
  | .buf b => b

/-- Embedding of `typeof content === 'string'`. -/
def Content.isStr : Content → Bool
  | .str _ => true
  | .buf _ => false

/-- One constructor per distinct throw site reachable from the module:
`unknownPointFormat` and `invalidPoint` are the two throws of `elliptic`'s
`decodePoint`/`pointFromX`; `encodingError` is the throw in `getHexFromBN`
("Generated a > 32-byte BN for encryption. Failing."); `macCheckFailed` is
"Decryption failed: failure in MAC check"; `cipherFailure` is a block-cipher
padding failure in `aes256CbcDecrypt`; `invalidSignature` is a DER parse
failure inside the signature primitive. -/
inductive CryptoError where
  | unknownPointFormat
  | invalidPoint
  | encodingError
  | macCheckFailed
  | cipherFailure
  | invalidSignature
deriving DecidableEq

/-- The wire/result object of ECIES encryption.  In the source every byte
field is hex-encoded; here each field holds the decoded bytes. -/
structure CipherObject where
  iv : Buffer
  ephemeralPK : Buffer
  cipherText : Buffer
  mac : Buffer
  wasString : Bool
deriving DecidableEq

/-- Result of `sharedSecretToKeys`. -/
structure SharedKeys where
  encryptionKey : Buffer
  hmacKey : Buffer
deriving DecidableEq

/-- Big-endian byte sequence to number (how `elliptic` reads 32-byte scalar
and coordinate slices). -/
def bytesToNat (bs : Buffer) : Nat := bs.foldl (fun a b => a * 256 + b) 0

/-- Little-endian base-256 digits of `n`, exactly `k` of them. -/
def natToBytesLE : Nat → Nat → List Nat
  | 0, _ => []
  | k + 1, n => n % 256 :: natToBytesLE k (n / 256)

/-- Big-endian 32-byte encoding of a number below `2 ^ 256`. -/
def natToBytes32 (n : Nat) : Buffer := (natToBytesLE 32 n).reverse

/-- Minimal big-endian hex digits of `n` (fuel-structured; the fuel `n + 1`
always suffices).  Mirrors `bn.js`'s `toString('hex')` which prints no
leading zeros. -/
def hexDigitsAux : Nat → Nat → List Nat
  | 0, _ => []
  | fuel + 1, n => if n = 0 then [] else hexDigitsAux fuel (n / 16) ++ [n % 16]

/-- Embedding of `bnInput.toString('hex')`: the natural (unpadded) hex
encoding of a big number; `0` prints as the single digit `0`. -/
def hexDigits (n : Nat) : List Nat := if n = 0 then [0] else hexDigitsAux (n + 1) n

/-- Value of a big-endian hex digit string. -/
def hexToNat (ds : List Nat) : Nat := ds.foldl (fun a d => a * 16 + d) 0

/-- Embedding of `new Buffer(hex, 'hex')`: consecutive hex digit pairs become
bytes (a trailing odd digit is dropped, as node does). -/
def hexPairsToBytes : List Nat → Buffer
  | h :: l :: rest => (h * 16 + l) :: hexPairsToBytes rest
  | _ => []

/-- Embedding of `equalConstTime` (src/encryption.js lines 29-38): length
mismatch returns false at once, otherwise all byte pairs are XORed into an
OR-accumulator inspected once at the end. -/
def equalConstTime (b1 b2 : Buffer) : Bool :=
  if b1.length ≠ b2.length then false
  else
    ((List.range b1.length).foldl
      (fun res i => res ||| (b1.getD i 0 ^^^ b2.getD i 0)) 0) == 0

/-- Embedding of `getHexFromBN` (src/encryption.js lines 49-62): a 64-digit
hex encoding is returned as-is, a shorter one is left-padded with zeros to
64 digits, a longer one throws. -/
def getHexFromBN (bnInput : Nat) : Except CryptoError (List Nat) :=
  let hexOut := hexDigits bnInput
  if hexOut.length = 64 then .ok hexOut
  else if hexOut.length < 64 then
    .ok (List.replicate (64 - hexOut.length) 0 ++ hexOut)
  else .error .encodingError

/-- The symmetric primitives the module imports from node `crypto`:
`sha512`/`sha256` are `createHash(…)` digests, `hmacSha256` is
`createHmac('sha256', key)`, `aesEnc`/`aesDec` are the AES-256-CBC
`aes256CbcEncrypt`/`aes256CbcDecrypt` helpers (decryption is partial: bad
padding throws, hence `Option`). -/
structure SymPrims where
  sha512 : Buffer → Buffer
  sha256 : Buffer → Buffer
  hmacSha256 : Buffer → Buffer → Buffer
  aesEnc : Buffer → Buffer → Buffer → Buffer
  aesDec : Buffer → Buffer → Buffer → Option Buffer

/-- Documented contracts of the symmetric primitives: SHA-512 digests are 64
bytes, HMAC-SHA256 digests are 32 bytes, and CBC decryption under the same
IV and key inverts encryption. -/
structure SymLaws (S : SymPrims) : Prop where
  sha512_len : ∀ b, (S.sha512 b).length = 64
  hmac_len : ∀ k m, (S.hmacSha256 k m).length = 32
  aes_roundtrip : ∀ iv key pt, S.aesDec iv key (S.aesEnc iv key pt) = some pt

/-- Embedding of `sharedSecretToKeys` (src/encryption.js lines 40-47):
SHA-512 the secret, first 32 bytes are the encryption key, the rest the MAC
key. -/
def sharedSecretToKeys (S : SymPrims) (sharedSecret : Buffer) : SharedKeys :=
  let hashedSecret := S.sha512 sharedSecret
  { encryptionKey := hashedSecret.take 32
    hmacKey := hashedSecret.drop 32 }

/-- The secp256k1 interface the module uses from `elliptic`: curve points
are abstract, `pointFromX` recovers a point from a compressed x-coordinate
(failing off-curve), `mkPoint` builds a point from raw uncompressed
coordinates (elliptic does not validate them), `encodeCompressed` is the
canonical 33-byte compressed encoding, `derive` is `sk.derive(pk)` (the BN
x-coordinate of the ECDH product), and `pubOf` maps a private scalar to its
public point (`getPublic`). -/
structure Curve where
  Point : Type
  pointFromX : Nat → Bool → Option Point
  mkPoint : Nat → Nat → Point
  encodeCompressed : Point → Buffer
  derive : Nat → Point → Nat
  pubOf : Nat → Point

/-- Documented contracts of the curve: compressed encodings are 33 bytes
starting with 02/03 and parse back to the same point; ECDH is commutative;
an x-coordinate fits in 32 bytes (the field size is below `2 ^ 256`). -/
structure CurveLaws (c : Curve) : Prop where
  encode_len : ∀ P, (c.encodeCompressed P).length = 33
  encode_head : ∀ P, (c.encodeCompressed P).headD 0 = 2 ∨ (c.encodeCompressed P).headD 0 = 3
  encode_fromX : ∀ P,
    c.pointFromX (bytesToNat ((c.encodeCompressed P).drop 1))
      ((c.encodeCompressed P).headD 0 == 3) = some P
  derive_comm : ∀ a b, c.derive a (c.pubOf b) = c.derive b (c.pubOf a)
  derive_lt : ∀ a P, c.derive a P < 2 ^ 256

/-- Embedding of `elliptic`'s `keyFromPublic`/`decodePoint` format dispatch
for a 32-byte curve: prefix 04/06/07 with 65 bytes is an uncompressed or
hybrid point built from raw coordinates (hybrid prefixes assert the parity
of the last byte), prefix 02/03 with 33 bytes is a compressed point looked
up from its x-coordinate ("invalid point" when off-curve), anything else
throws "Unknown point format". -/
def decodePoint (c : Curve) (bytes : Buffer) : Except CryptoError c.Point :=
  if (bytes.headD 0 = 4 ∨ bytes.headD 0 = 6 ∨ bytes.headD 0 = 7) ∧
      bytes.length - 1 = 64 then
    if bytes.headD 0 = 6 ∧ (bytes.getLastD 0) % 2 ≠ 0 then .error .invalidPoint
    else if bytes.headD 0 = 7 ∧ (bytes.getLastD 0) % 2 ≠ 1 then .error .invalidPoint
    else .ok (c.mkPoint (bytesToNat ((bytes.drop 1).take 32))
                        (bytesToNat ((bytes.drop 33).take 32)))
  else if (bytes.headD 0 = 2 ∨ bytes.headD 0 = 3) ∧ bytes.length - 1 = 32 then
    match c.pointFromX (bytesToNat ((bytes.drop 1).take 32)) (bytes.headD 0 == 3) with
    | some P => .ok P
    | none => .error .invalidPoint
  else .error .unknownPointFormat

/-- The `getHexFromBN` / `new Buffer(hex, 'hex')` / `sharedSecretToKeys`
sequence shared by both the encrypt and the decrypt pipeline
(src/encryption.js lines 84-89 and 123-126). -/
def kdfFromSecret (S : SymPrims) (sharedSecret : Nat) : Except CryptoError SharedKeys :=
  match getHexFromBN sharedSecret with
  | .error e => .error e
  | .ok hexOut => .ok (sharedSecretToKeys S (hexPairsToBytes hexOut))

/-- Embedding of `encryptECIES` (src/encryption.js lines 74-107).  The two
sources of fresh randomness — the ephemeral key pair and the 16-byte IV —
are explicit arguments, so the function is the deterministic core of the
original. -/
def encryptECIES (c : Curve) (S : SymPrims) (publicKey : Buffer) (content : Content)
    (ephemeralSK : Nat) (initializationVector : Buffer) :
    Except CryptoError CipherObject :=
  let isString := content.isStr
  let plainText := content.toBuffer
  match decodePoint c publicKey with
  | .error e => .error e
  | .ok ecPK =>
    match kdfFromSecret S (c.derive ephemeralSK ecPK) with
    | .error e => .error e
    | .ok sharedKeys =>
      let cipherText := S.aesEnc initializationVector sharedKeys.encryptionKey plainText
      let macData := initializationVector ++
        c.encodeCompressed (c.pubOf ephemeralSK) ++ cipherText
      .ok { iv := initializationVector
            ephemeralPK := c.encodeCompressed (c.pubOf ephemeralSK)
            cipherText := cipherText
            mac := S.hmacSha256 sharedKeys.hmacKey macData
            wasString := isString }

/-- Embedding of `decryptECIES` (src/encryption.js lines 120-148): parse the
ephemeral public key, rederive the shared keys, recompute the HMAC over
`iv ∥ compressed ephemeral key ∥ cipherText`, compare it in constant time
with the received mac, and only on success run the block cipher. -/
def decryptECIES (c : Curve) (S : SymPrims) (privateKey : Buffer)
    (cipherObject : CipherObject) : Except CryptoError Content :=
  match decodePoint c cipherObject.ephemeralPK with
  | .error e => .error e
  | .ok ephemeralPK =>
    match kdfFromSecret S (c.derive (bytesToNat privateKey) ephemeralPK) with
    | .error e => .error e
    | .ok sharedKeys =>
      let macData := cipherObject.iv ++
        c.encodeCompressed ephemeralPK ++ cipherObject.cipherText
      let actualMac := S.hmacSha256 sharedKeys.hmacKey macData
      let expectedMac := cipherObject.mac
      if equalConstTime expectedMac actualMac then
        match S.aesDec cipherObject.iv sharedKeys.encryptionKey
            cipherObject.cipherText with
        | none => .error .cipherFailure
        | some plainText =>
          .ok (if cipherObject.wasString then .str plainText else .buf plainText)
      else .error .macCheckFailed

/-- The ECDSA primitive of `elliptic`: `sign` is `keyFromPrivate(sk).sign(hash).toDER`,
and `verifyRaw` is `keyFromPublic(pk).verify(hash, signature)` after the
public key has been parsed — it may throw while parsing the DER signature,
hence the `Except`. -/
structure SigPrims (c : Curve) where
  sign : Nat → Buffer → Buffer
  verifyRaw : c.Point → Buffer → Buffer → Except CryptoError Bool

/-- Documented contracts of the ECDSA primitive: a signature produced by
`sign` verifies under the matching public point, and is rejected with a
clean `false` (no error) under a different hash or a different public
point. -/
structure SigLaws (c : Curve) (G : SigPrims c) : Prop where
  sign_valid : ∀ k h, G.verifyRaw (c.pubOf k) h (G.sign k h) = .ok true
  wrong_hash : ∀ k h h2, h2 ≠ h → G.verifyRaw (c.pubOf k) h2 (G.sign k h) = .ok false
  wrong_key : ∀ k k2 h, c.pubOf k2 ≠ c.pubOf k →
    G.verifyRaw (c.pubOf k2) h (G.sign k h) = .ok false

/-- Modelled from the spec: `getPublicKeyFromPrivate` is imported from
`./keys`, a repository file not among the sources.  The spec's
external-collaborator contract (section 6) says it must return the
compressed-point encoding of the public key derived from the private key,
consistent with this module's public-key parsing. -/
def getPublicKeyFromPrivate (c : Curve) (privateKey : Buffer) : Buffer :=
  c.encodeCompressed (c.pubOf (bytesToNat privateKey))

/-- Result object of `signECDSA`. -/
structure SigResult where
  publicKey : Buffer
  signature : Buffer
deriving DecidableEq

/-- Embedding of `signECDSA` (src/encryption.js lines 159-172): SHA-256 the
content, sign the hash, return the DER signature together with the public
key derived from the same private key. -/
def signECDSA (c : Curve) (S : SymPrims) (G : SigPrims c) (privateKey : Buffer)
    (content : Content) : SigResult :=
  let contentBuffer := content.toBuffer
  let ecPrivate := bytesToNat privateKey
  let publicKey := getPublicKeyFromPrivate c privateKey
  let contentHash := S.sha256 contentBuffer
  { publicKey := publicKey
    signature := G.sign ecPrivate contentHash }

/-- Embedding of `verifyECDSA` (src/encryption.js lines 182-190): parse the
public key, SHA-256 the content exactly as when signing, and delegate to the
curve's verification. -/
def verifyECDSA (c : Curve) (S : SymPrims) (G : SigPrims c) (content : Content)
    (publicKey : Buffer) (signature : Buffer) : Except CryptoError Bool :=
  let contentBuffer := content.toBuffer
  match decodePoint c publicKey with
  | .error e => .error e
  | .ok ecPublic => G.verifyRaw ecPublic (S.sha256 contentBuffer) signature

/-- Flip bit `k` (0-7) of the byte at index `i`: the single-bit tampering of
the spec's tamper-sensitivity property. -/
def flipBitAt (b : Buffer) (i k : Nat) : Buffer :=
  b.set i (b.getD i 0 ^^^ 2 ^ k)

/-- Left-zero-padded 64-digit hex form of a number, as produced by the
successful branches of `getHexFromBN` (when the natural encoding is 64
digits the padding is empty). -/
def padHex (n : Nat) : List Nat :=
  List.replicate (64 - (hexDigits n).length) 0 ++ hexDigits n

/-- The shared keys both pipelines derive from an in-range shared secret. -/
def deriveKeys (S : SymPrims) (n : Nat) : SharedKeys :=
  sharedSecretToKeys S (hexPairsToBytes (padHex n))

theorem lor_eq_zero_nat {x y : Nat} : x ||| y = 0 ↔ x = 0 ∧ y = 0 := by
  constructor
  · intro h
    have hb : ∀ i, x.testBit i = false ∧ y.testBit i = false := by
      intro i
      have hc := congrArg (fun t => Nat.testBit t i) h
      simp only [Nat.testBit_lor, Nat.zero_testBit, Bool.or_eq_false_iff] at hc
      exact hc
    exact ⟨Nat.zero_of_testBit_eq_false fun i => (hb i).1,
      Nat.zero_of_testBit_eq_false fun i => (hb i).2⟩
  · rintro ⟨rfl, rfl⟩
    rfl

theorem foldl_lor_xor_eq_zero (a b : Buffer) (l : List Nat) :
    ∀ acc : Nat,
      (l.foldl (fun res i => res ||| (a.getD i 0 ^^^ b.getD i 0)) acc = 0 ↔
        acc = 0 ∧ ∀ i ∈ l, a.getD i 0 ^^^ b.getD i 0 = 0) := by
  induction l with
  | nil => intro acc; simp
  | cons x xs ih =>
    intro acc
    rw [List.foldl_cons, ih, lor_eq_zero_nat]
    constructor
    · rintro ⟨⟨hacc, hx⟩, h⟩
      refine ⟨hacc, fun i hi => ?_⟩
      rcases List.mem_cons.mp hi with rfl | hmem
      · exact hx
      · exact h i hmem
    · rintro ⟨hacc, h⟩
      exact ⟨⟨hacc, h x (List.mem_cons_self x xs)⟩,
        fun i hi => h i (List.mem_cons_of_mem x hi)⟩

theorem equalConstTime_eq_true {a b : Buffer} : equalConstTime a b = true ↔ a = b := by
  unfold equalConstTime
  rcases eq_or_ne a.length b.length with hlen | hlen
  · rw [if_neg (fun hc => hc hlen), beq_iff_eq, foldl_lor_xor_eq_zero]
    constructor
    · rintro ⟨-, h⟩
      apply List.ext_getElem hlen
      intro i h1 h2
      have hx := h i (List.mem_range.mpr h1)
      rw [Nat.xor_eq_zero] at hx
      rwa [List.getD_eq_getElem a 0 h1, List.getD_eq_getElem b 0 h2] at hx
    · rintro rfl
      exact ⟨rfl, fun i _ => Nat.xor_self _⟩
  · rw [if_pos hlen]
    constructor
    · intro h
      exact absurd h Bool.false_ne_true
    · intro h
      exact absurd (congrArg List.length h) hlen

theorem equalConstTime_self (a : Buffer) : equalConstTime a a = true :=
  equalConstTime_eq_true.mpr rfl

theorem equalConstTime_of_length_ne {a b : Buffer} (h : a.length ≠ b.length) :
    equalConstTime a b = false := by
  unfold equalConstTime
  rw [if_pos h]

theorem equalConstTime_of_ne {a b : Buffer} (h : a ≠ b) :
    equalConstTime a b = false := by
  cases hv : equalConstTime a b with
  | false => rfl
  | true => exact absurd (equalConstTime_eq_true.mp hv) h

theorem natToBytesLE_length (k : Nat) : ∀ n, (natToBytesLE k n).length = k := by
  induction k with
  | zero => intro n; rfl
  | succ k ih =>
    intro n
    show (n % 256 :: natToBytesLE k (n / 256)).length = k + 1
    rw [List.length_cons, ih]

theorem natToBytes32_length (n : Nat) : (natToBytes32 n).length = 32 := by
  unfold natToBytes32
  rw [List.length_reverse, natToBytesLE_length]

theorem bytesToNat_natToBytesLE (k : Nat) :
    ∀ n, n < 256 ^ k → bytesToNat ((natToBytesLE k n).reverse) = n := by
  induction k with
  | zero =>
    intro n h
    have hn : n = 0 := by simpa using h
    subst hn
    rfl
  | succ k ih =>
    intro n h
    show bytesToNat ((n % 256 :: natToBytesLE k (n / 256)).reverse) = n
    rw [List.reverse_cons]
    unfold bytesToNat
    rw [List.foldl_append]
    have hdiv : n / 256 < 256 ^ k := by
      rw [Nat.div_lt_iff_lt_mul (by omega)]
      calc n < 256 ^ (k + 1) := h
        _ = 256 ^ k * 256 := by rw [Nat.pow_succ]
    have hrec : List.foldl (fun a b => a * 256 + b) 0 ((natToBytesLE k (n / 256)).reverse)
        = n / 256 := ih (n / 256) hdiv
    rw [hrec]
    simp only [List.foldl_cons, List.foldl_nil]
    omega

theorem bytesToNat_natToBytes32 {n : Nat} (h : n < 2 ^ 256) :
    bytesToNat (natToBytes32 n) = n := by
  apply bytesToNat_natToBytesLE
  have e : (256 : Nat) ^ 32 = 2 ^ 256 := by norm_num
  rw [e]
  exact h

theorem natToBytes32_inj {m n : Nat} (hm : m < 2 ^ 256) (hn : n < 2 ^ 256)
    (h : natToBytes32 m = natToBytes32 n) : m = n := by
  rw [← bytesToNat_natToBytes32 hm, ← bytesToNat_natToBytes32 hn, h]

theorem hexToNat_append_digit (l : List Nat) (d : Nat) :
    hexToNat (l ++ [d]) = hexToNat l * 16 + d := by
  unfold hexToNat
  rw [List.foldl_append]
  simp only [List.foldl_cons, List.foldl_nil]

theorem hexToNat_hexDigitsAux :
    ∀ fuel n : Nat, n ≤ fuel → hexToNat (hexDigitsAux fuel n) = n := by
  intro fuel
  induction fuel with
  | zero =>
    intro n h
    have hn : n = 0 := by omega
    subst hn
    rfl
  | succ f ih =>
    intro n h
    by_cases h0 : n = 0
    · subst h0
      rfl
    · show hexToNat (if n = 0 then [] else hexDigitsAux f (n / 16) ++ [n % 16]) = n
      rw [if_neg h0, hexToNat_append_digit]
      have hlt : n / 16 < n := Nat.div_lt_self (Nat.pos_of_ne_zero h0) (by omega)
      rw [ih (n / 16) (by omega)]
      omega

theorem hexToNat_hexDigits (n : Nat) : hexToNat (hexDigits n) = n := by
  unfold hexDigits
  by_cases h0 : n = 0
  · subst h0
    rfl
  · rw [if_neg h0]
    exact hexToNat_hexDigitsAux (n + 1) n (by omega)

theorem hexDigitsAux_length_le :
    ∀ fuel k n : Nat, n < 16 ^ k → n ≤ fuel → (hexDigitsAux fuel n).length ≤ k := by
  intro fuel
  induction fuel with
  | zero =>
    intro k n _ hf
    have hn : n = 0 := by omega
    subst hn
    simp [hexDigitsAux]
  | succ f ih =>
    intro k n hk hf
    by_cases h0 : n = 0
    · subst h0
      simp [hexDigitsAux]
    · show (if n = 0 then [] else hexDigitsAux f (n / 16) ++ [n % 16]).length ≤ k
      rw [if_neg h0, List.length_append]
      have hkpos : k ≠ 0 := by
        intro hk0
        subst hk0
        simp only [pow_zero] at hk
        omega
      have hdiv : n / 16 < 16 ^ (k - 1) := by
        rw [Nat.div_lt_iff_lt_mul (by omega)]
        have he : 16 ^ (k - 1) * 16 = 16 ^ k := by
          rw [← Nat.pow_succ]
          congr 1
          omega
        rw [he]
        exact hk
      have hlt : n / 16 < n := Nat.div_lt_self (Nat.pos_of_ne_zero h0) (by omega)
      have hrec := ih (k - 1) (n / 16) hdiv (by omega)
      simp only [List.length_cons, List.length_nil]
      omega

theorem hexDigits_length_le {n : Nat} (h : n < 16 ^ 64) :
    (hexDigits n).length ≤ 64 := by
  unfold hexDigits
  by_cases h0 : n = 0
  · subst h0
    simp
  · rw [if_neg h0]
    exact hexDigitsAux_length_le (n + 1) 64 n h (by omega)

theorem getHexFromBN_of_le {n : Nat} (h : (hexDigits n).length ≤ 64) :
    getHexFromBN n = .ok (padHex n) := by
  unfold getHexFromBN padHex
  rcases Nat.lt_or_ge (hexDigits n).length 64 with hlt | hge
  · rw [if_neg (by omega), if_pos hlt]
  · have h64 : (hexDigits n).length = 64 := by omega
    rw [if_pos h64, h64]
    simp

theorem getHexFromBN_of_gt {n : Nat} (h : 64 < (hexDigits n).length) :
    getHexFromBN n = .error .encodingError := by
  unfold getHexFromBN
  rw [if_neg (by omega), if_neg (by omega)]

theorem padHex_length {n : Nat} (h : (hexDigits n).length ≤ 64) :
    (padHex n).length = 64 := by
  unfold padHex
  rw [List.length_append, List.length_replicate]
  omega

theorem foldl_hex_replicate_zero (j : Nat) :
    List.foldl (fun a d => a * 16 + d) 0 (List.replicate j 0) = 0 := by
  induction j with
  | zero => rfl
  | succ j ih =>
    rw [List.replicate_succ, List.foldl_cons]
    simpa using ih

theorem hexToNat_padHex (n : Nat) : hexToNat (padHex n) = n := by
  unfold padHex
  show hexToNat (List.replicate (64 - (hexDigits n).length) 0 ++ hexDigits n) = n
  unfold hexToNat
  rw [List.foldl_append, foldl_hex_replicate_zero]
  exact hexToNat_hexDigits n

theorem decodePoint_encodeCompressed {c : Curve} (hc : CurveLaws c) (P : c.Point) :
    decodePoint c (c.encodeCompressed P) = .ok P := by
  unfold decodePoint
  have hlen := hc.encode_len P
  have hhead := hc.encode_head P
  have hfromX := hc.encode_fromX P
  have h1 : ¬ (((c.encodeCompressed P).headD 0 = 4 ∨ (c.encodeCompressed P).headD 0 = 6 ∨
      (c.encodeCompressed P).headD 0 = 7) ∧ (c.encodeCompressed P).length - 1 = 64) := by
    rintro ⟨h, -⟩
    rcases hhead with h2 | h2 <;> rcases h with h3 | h3 | h3 <;> omega
  rw [if_neg h1]
  have h2 : ((c.encodeCompressed P).headD 0 = 2 ∨ (c.encodeCompressed P).headD 0 = 3) ∧
      (c.encodeCompressed P).length - 1 = 32 := ⟨hhead, by omega⟩
  rw [if_pos h2]
  have hdrop : ((c.encodeCompressed P).drop 1).take 32 = (c.encodeCompressed P).drop 1 := by
    apply List.take_of_length_le
    rw [List.length_drop, hlen]
  rw [hdrop, hfromX]

theorem kdfFromSecret_of_lt {S : SymPrims} {n : Nat} (h : n < 2 ^ 256) :
    kdfFromSecret S n = .ok (deriveKeys S n) := by
  unfold kdfFromSecret deriveKeys
  have h16 : n < 16 ^ 64 := by
    have e : (16 : Nat) ^ 64 = 2 ^ 256 := by norm_num
    rw [e]
    exact h
  rw [getHexFromBN_of_le (hexDigits_length_le h16)]

theorem encryptECIES_eq {c : Curve} {S : SymPrims} {publicKey : Buffer} {m : Content}
    {eph : Nat} {iv : Buffer} {P : c.Point}
    (hpk : decodePoint c publicKey = .ok P)
    (hlt : c.derive eph P < 2 ^ 256) :
    encryptECIES c S publicKey m eph iv =
      .ok { iv := iv
            ephemeralPK := c.encodeCompressed (c.pubOf eph)
            cipherText := S.aesEnc iv (deriveKeys S (c.derive eph P)).encryptionKey m.toBuffer
            mac := S.hmacSha256 (deriveKeys S (c.derive eph P)).hmacKey
              (iv ++ c.encodeCompressed (c.pubOf eph) ++
                S.aesEnc iv (deriveKeys S (c.derive eph P)).encryptionKey m.toBuffer)
            wasString := m.isStr } := by
  unfold encryptECIES
  rw [hpk]
  dsimp only
  rw [kdfFromSecret_of_lt hlt]

theorem decryptECIES_eq {c : Curve} {S : SymPrims} {sk : Buffer} {co : CipherObject}
    {Q : c.Point} {keys : SharedKeys}
    (hQ : decodePoint c co.ephemeralPK = .ok Q)
    (hkd : kdfFromSecret S (c.derive (bytesToNat sk) Q) = .ok keys) :
    decryptECIES c S sk co =
      if equalConstTime co.mac (S.hmacSha256 keys.hmacKey
          (co.iv ++ c.encodeCompressed Q ++ co.cipherText)) then
        match S.aesDec co.iv keys.encryptionKey co.cipherText with
        | none => .error .cipherFailure
        | some pt => .ok (if co.wasString then .str pt else .buf pt)
      else .error .macCheckFailed := by
  unfold decryptECIES
  rw [hQ]
  dsimp only
  rw [hkd]

/-- Concrete lawful instantiation of the curve interface, used to witness
that the assumed contracts are satisfiable and to evaluate the pipelines on
concrete inputs: the cyclic group `Z/7` written additively, with
"scalar multiplication" `a * P % 7` and base point 5. -/
def toyCurve : Curve where
  Point := Fin 7
  pointFromX := fun x odd => if h : x < 7 ∧ odd = false then some ⟨x, h.1⟩ else none
  mkPoint := fun x _ => ⟨x % 7, Nat.mod_lt x (by omega)⟩
  encodeCompressed := fun P => 2 :: natToBytes32 P.val
  derive := fun a P => a * P.val % 7
  pubOf := fun a => ⟨5 * a % 7, Nat.mod_lt _ (by omega)⟩

theorem toyCurveLaws : CurveLaws toyCurve := by
  constructor
  · intro P
    show (2 :: natToBytes32 P.val).length = 33
    rw [List.length_cons, natToBytes32_length]
  · intro P
    exact Or.inl rfl
  · intro P
    show toyCurve.pointFromX (bytesToNat (natToBytes32 P.val)) false = some P
    have hv : P.val < 2 ^ 256 := lt_trans P.isLt (by norm_num)
    rw [bytesToNat_natToBytes32 hv]
    show (if h : P.val < 7 ∧ false = false then some (⟨P.val, h.1⟩ : Fin 7) else none)
      = some P
    rw [dif_pos ⟨P.isLt, rfl⟩]
    exact congrArg some (Fin.ext rfl)
  · intro a b
    show a * (5 * b % 7) % 7 = b * (5 * a % 7) % 7
    have h1 : a * (5 * b % 7) % 7 = a * (5 * b) % 7 := by
      conv_lhs => rw [Nat.mul_mod]
      conv_rhs => rw [Nat.mul_mod]
      rw [Nat.mod_mod_of_dvd _ (dvd_refl 7)]
    have h2 : b * (5 * a % 7) % 7 = b * (5 * a) % 7 := by
      conv_lhs => rw [Nat.mul_mod]
      conv_rhs => rw [Nat.mul_mod]
      rw [Nat.mod_mod_of_dvd _ (dvd_refl 7)]
    rw [h1, h2]
    have h3 : a * (5 * b) = b * (5 * a) := by ring
    rw [h3]
  · intro a P
    show a * P.val % 7 < 2 ^ 256
    exact lt_trans (Nat.mod_lt _ (by omega)) (by norm_num)

/-- Concrete lawful instantiation of the symmetric primitives: the "hashes"
mix byte sums into fixed-length digests, the "cipher" reverses the
plaintext (a key-independent involution satisfying the round-trip law). -/
def toySym : SymPrims where
  sha512 := fun b => (List.range 64).map (fun i => (b.foldl (· + ·) 0 + i) % 256)
  sha256 := fun b => (List.range 32).map (fun i => (b.foldl (· + ·) 0 + 2 * i + 1) % 256)
  hmacSha256 := fun k m =>
    (List.range 32).map (fun i => (k.foldl (· + ·) 0 + m.foldl (· + ·) 0 + i) % 256)
  aesEnc := fun _ _ pt => pt.reverse
  aesDec := fun _ _ ct => some ct.reverse

theorem toySymLaws : SymLaws toySym := by
  constructor
  · intro b
    simp [toySym]
  · intro k m
    simp [toySym]
  · intro iv key pt
    simp [toySym]

/-- Concrete lawful instantiation of the signature primitive: a "signature"
is the tag byte 9 followed by the signer's encoded public value and the
hash; verification checks the tag (a missing tag is the DER parse error)
and then compares the whole signature against the expected one. -/
def toySig : SigPrims toyCurve where
  sign := fun k h => 9 :: (natToBytes32 (5 * k % 7) ++ h)
  verifyRaw := fun P h sig =>
    if sig.headD 0 = 9 then .ok (decide (sig = 9 :: (natToBytes32 P.val ++ h)))
    else .error .invalidSignature

theorem toySig_pubOf_val (k : Nat) : (toyCurve.pubOf k).val = 5 * k % 7 := rfl

theorem toySigLaws : SigLaws toyCurve toySig := by
  constructor
  · intro k h
    show (if (9 : Nat) = 9 then Except.ok (decide ((9 :: (natToBytes32 (5 * k % 7) ++ h))
        = 9 :: (natToBytes32 ((toyCurve.pubOf k).val) ++ h))) else .error .invalidSignature)
      = .ok true
    rw [if_pos rfl, toySig_pubOf_val]
    exact congrArg Except.ok (decide_eq_true rfl)
  · intro k h h2 hne
    show (if (9 : Nat) = 9 then Except.ok (decide ((9 :: (natToBytes32 (5 * k % 7) ++ h))
        = 9 :: (natToBytes32 ((toyCurve.pubOf k).val) ++ h2))) else .error .invalidSignature)
      = .ok false
    rw [if_pos rfl, toySig_pubOf_val]
    have hd : ¬ ((9 :: (natToBytes32 (5 * k % 7) ++ h))
        = 9 :: (natToBytes32 (5 * k % 7) ++ h2)) := by
      intro heq
      have htail := List.tail_eq_of_cons_eq heq
      exact hne (List.append_cancel_left htail).symm
    rw [decide_eq_false hd]
  · intro k k2 h hne
    show (if (9 : Nat) = 9 then Except.ok (decide ((9 :: (natToBytes32 (5 * k % 7) ++ h))
        = 9 :: (natToBytes32 ((toyCurve.pubOf k2).val) ++ h))) else .error .invalidSignature)
      = .ok false
    rw [if_pos rfl, toySig_pubOf_val]
    have hd : ¬ ((9 :: (natToBytes32 (5 * k % 7) ++ h))
        = 9 :: (natToBytes32 (5 * k2 % 7) ++ h)) := by
      intro heq
      have htail := List.tail_eq_of_cons_eq heq
      have hpair := List.append_inj htail (by rw [natToBytes32_length, natToBytes32_length])
      have hval : 5 * k % 7 = 5 * k2 % 7 :=
        natToBytes32_inj (lt_trans (Nat.mod_lt _ (by omega)) (by norm_num))
          (lt_trans (Nat.mod_lt _ (by omega)) (by norm_num)) hpair.1
      apply hne
      apply Fin.ext
      rw [toySig_pubOf_val, toySig_pubOf_val, hval]
    rw [decide_eq_false hd]

theorem xor_ne_of_ne_zero {x p : Nat} (hp : p ≠ 0) : x ^^^ p ≠ x := by
  intro h
  apply hp
  calc p = 0 ^^^ p := (Nat.zero_xor p).symm
    _ = (x ^^^ x) ^^^ p := by rw [Nat.xor_self]
    _ = x ^^^ (x ^^^ p) := Nat.xor_assoc x x p
    _ = x ^^^ x := by rw [h]
    _ = 0 := Nat.xor_self x

theorem flipBitAt_ne {b : Buffer} {i k : Nat} (h : i < b.length) :
    flipBitAt b i k ≠ b := by
  intro heq
  have hlen : i < (flipBitAt b i k).length := by
    unfold flipBitAt
    rw [List.length_set]
    exact h
  have h1 : (flipBitAt b i k).getD i 0 = b.getD i 0 := by rw [heq]
  have h2 : (flipBitAt b i k).getD i 0 = b.getD i 0 ^^^ 2 ^ k := by
    rw [List.getD_eq_getElem _ 0 hlen]
    exact List.getElem_set_self hlen
  rw [h2] at h1
  exact xor_ne_of_ne_zero (Nat.two_pow_pos k).ne' h1

theorem flipBitAt_length (b : Buffer) (i k : Nat) :
    (flipBitAt b i k).length = b.length := by
  unfold flipBitAt
  rw [List.length_set]

/-- Core of the MAC gate: whenever the constant-time comparison of the
received mac against the recomputed HMAC fails, decryption stops with the
MAC-check error, and the result does not depend on the block-cipher
decryption function at all. -/
theorem decryptECIES_macFail {c : Curve} {S : SymPrims} {sk : Buffer} {co : CipherObject}
    {Q : c.Point} {keys : SharedKeys}
    (hQ : decodePoint c co.ephemeralPK = .ok Q)
    (hkd : kdfFromSecret S (c.derive (bytesToNat sk) Q) = .ok keys)
    (hfail : equalConstTime co.mac (S.hmacSha256 keys.hmacKey
      (co.iv ++ c.encodeCompressed Q ++ co.cipherText)) = false) :
    decryptECIES c S sk co = .error .macCheckFailed ∧
      ∀ D, decryptECIES c { S with aesDec := D } sk co = .error .macCheckFailed := by
  constructor
  · rw [@decryptECIES_eq c S sk co Q keys hQ hkd, hfail]
    simp
  · intro D
    have hkd2 : kdfFromSecret { S with aesDec := D } (c.derive (bytesToNat sk) Q)
        = .ok keys := hkd
    rw [@decryptECIES_eq c { S with aesDec := D } sk co Q keys hQ hkd2]
    dsimp only
    rw [hfail]
    simp

/-- Concrete private key (the byte string `[2]`). -/
def sk0 : Buffer := [2]

/-- Concrete string content (the UTF-8 bytes of "hi"). -/
def m0 : Content := .str [104, 105]

/-- Concrete 16-byte initialization vector. -/
def iv0 : Buffer := List.replicate 16 9

/-- Compressed public key matching `sk0` on the toy curve. -/
def pk0 : Buffer := toyCurve.encodeCompressed (toyCurve.pubOf (bytesToNat sk0))

/-- The cipher object produced by encrypting `m0` for `pk0` with ephemeral
scalar 3 and IV `iv0` on the toy instantiation. -/
def co0 : CipherObject :=
  (encryptECIES toyCurve toySym pk0 m0 3 iv0).toOption.getD ⟨[], [], [], [], false⟩

/-- The shared keys both pipelines derive for the `sk0`/ephemeral-3 pair on
the toy instantiation (the shared secret is 2). -/
def keys0 : SharedKeys := deriveKeys toySym 2

/-- `co0` with one bit flipped in the first byte of `ephemeralPK` (prefix
02 becomes 06). -/
def co3 : CipherObject := { co0 with ephemeralPK := flipBitAt co0.ephemeralPK 0 2 }

/-- A cipher object whose `mac` is 3 bytes long and whose `ephemeralPK` is
33 bytes with prefix 06 (an encoding `elliptic` rejects as an unknown point
format). -/
def coBad : CipherObject :=
  { iv := [], ephemeralPK := 6 :: natToBytes32 1, cipherText := [], mac := [1, 2, 3]
    wasString := false }

/-- Uncompressed (prefix 04) encoding of the same toy point as
`co0.ephemeralPK`. -/
def unc0 : Buffer := 4 :: (natToBytes32 1 ++ natToBytes32 0)

/-- C1: for every key pair (`sk` with its compressed public key) and every
content `m` (string or bytes), any cipher object produced by `encryptECIES`
decrypts under `sk` back to exactly `m`, with the string/bytes
representation preserved (the result carries the same `Content`
constructor the input had).  Assumes the documented contracts of the curve
and the symmetric primitives. -/
theorem ecies_roundtrip (c : Curve) (S : SymPrims) (hc : CurveLaws c) (hS : SymLaws S)
    (sk : Buffer) (m : Content) (eph : Nat) (iv : Buffer) (co : CipherObject)
    (henc : encryptECIES c S (c.encodeCompressed (c.pubOf (bytesToNat sk))) m eph iv
      = .ok co) :
    decryptECIES c S sk co = .ok m := by
  rw [@encryptECIES_eq c S _ m eph iv (c.pubOf (bytesToNat sk))
    (decodePoint_encodeCompressed hc _) (hc.derive_lt eph _)] at henc
  injection henc with hco
  subst hco
  have hkd : kdfFromSecret S (c.derive (bytesToNat sk) (c.pubOf eph))
      = .ok (deriveKeys S (c.derive eph (c.pubOf (bytesToNat sk)))) := by
    rw [hc.derive_comm]
    exact kdfFromSecret_of_lt (hc.derive_lt _ _)
  rw [@decryptECIES_eq c S sk _ (c.pubOf eph)
    (deriveKeys S (c.derive eph (c.pubOf (bytesToNat sk))))
    (decodePoint_encodeCompressed hc _) hkd]
  dsimp only
  rw [equalConstTime_self]
  simp only [if_true]
  rw [hS.aes_roundtrip]
  cases m with
  | str s => rfl
  | buf b => rfl

/-- C1 witness: a full concrete round trip on the toy instantiation. -/
theorem ecies_roundtrip_w : decryptECIES toyCurve toySym sk0 co0 = .ok m0 :=
  ecies_roundtrip toyCurve toySym toyCurveLaws toySymLaws sk0 m0 3 iv0 co0 rfl

/-- C2: after the ephemeral key has been parsed and the shared keys derived,
`decryptECIES` compares the received mac with the HMAC it recomputes over
`iv ∥ compressed ephemeral key ∥ cipherText` using the constant-time
comparison; when that comparison fails it returns exactly the MAC-check
error, and the result is independent of the block-cipher decryption
function (so no plaintext, partial or whole, is produced). -/
theorem decrypt_mac_gate (c : Curve) (S : SymPrims) (sk : Buffer) (co : CipherObject)
    (Q : c.Point) (keys : SharedKeys)
    (hQ : decodePoint c co.ephemeralPK = .ok Q)
    (hkd : kdfFromSecret S (c.derive (bytesToNat sk) Q) = .ok keys)
    (hfail : equalConstTime co.mac (S.hmacSha256 keys.hmacKey
      (co.iv ++ c.encodeCompressed Q ++ co.cipherText)) = false) :
    decryptECIES c S sk co = .error .macCheckFailed ∧
      ∀ D, decryptECIES c { S with aesDec := D } sk co = .error .macCheckFailed :=
  decryptECIES_macFail hQ hkd hfail

/-- C2 witness: a cipher object with an emptied mac is rejected with the
MAC-check error on the toy instantiation. -/
theorem decrypt_mac_gate_w :
    decryptECIES toyCurve toySym sk0 { co0 with mac := [] } = .error .macCheckFailed :=
  (decrypt_mac_gate toyCurve toySym sk0 { co0 with mac := [] } (toyCurve.pubOf 3) keys0
    rfl rfl (by decide)).1

/-- C7: `equalConstTime` returns false whenever the lengths differ, and for
equal-length byte sequences returns true exactly when they are
byte-identical (for all lengths, in particular 0 through 64). -/
theorem equalConstTime_spec (a b : Buffer) :
    (a.length ≠ b.length → equalConstTime a b = false) ∧
    (a.length = b.length → (equalConstTime a b = true ↔ a = b)) :=
  ⟨equalConstTime_of_length_ne, fun _ => equalConstTime_eq_true⟩

/-- C7 witness: concrete 64-byte and mismatched-length comparisons. -/
theorem equalConstTime_spec_w :
    equalConstTime (List.replicate 64 7) (List.replicate 65 7) = false ∧
    equalConstTime (List.replicate 64 7) (List.replicate 64 7) = true ∧
    equalConstTime [0, 1, 2] [0, 1, 3] = false := by
  refine ⟨(equalConstTime_spec (List.replicate 64 7) (List.replicate 65 7)).1 (by decide),
    ((equalConstTime_spec (List.replicate 64 7) (List.replicate 64 7)).2 rfl).mpr rfl,
    ?_⟩
  have h := (equalConstTime_spec [0, 1, 2] [0, 1, 3]).2 rfl
  cases hv : equalConstTime [0, 1, 2] [0, 1, 3] with
  | false => rfl
  | true => exact absurd (h.mp hv) (by decide)

/-- C3 (amended): flipping any single bit of `mac` in a valid cipher object
makes `decryptECIES` fail with the MAC-mismatch error unconditionally;
flipping any single bit of `iv` or `cipherText` does so provided the HMAC
recomputed over the tampered data does not collide with the stored mac.
(A flip inside `ephemeralPK` need not produce the MAC-mismatch error: it
can make the point encoding unparseable, see the counterexample.) -/
theorem tamper_single_bit (c : Curve) (S : SymPrims) (hc : CurveLaws c)
    (sk : Buffer) (m : Content) (eph : Nat) (iv : Buffer) (co : CipherObject)
    (keys : SharedKeys)
    (henc : encryptECIES c S (c.encodeCompressed (c.pubOf (bytesToNat sk))) m eph iv
      = .ok co)
    (hkeys : kdfFromSecret S (c.derive eph (c.pubOf (bytesToNat sk))) = .ok keys) :
    (∀ i k, i < co.mac.length →
      decryptECIES c S sk { co with mac := flipBitAt co.mac i k }
        = .error .macCheckFailed) ∧
    (∀ i k, S.hmacSha256 keys.hmacKey
        (flipBitAt co.iv i k ++ c.encodeCompressed (c.pubOf eph) ++ co.cipherText)
          ≠ co.mac →
      decryptECIES c S sk { co with iv := flipBitAt co.iv i k }
        = .error .macCheckFailed) ∧
    (∀ i k, S.hmacSha256 keys.hmacKey
        (co.iv ++ c.encodeCompressed (c.pubOf eph) ++ flipBitAt co.cipherText i k)
          ≠ co.mac →
      decryptECIES c S sk { co with cipherText := flipBitAt co.cipherText i k }
        = .error .macCheckFailed) := by
  rw [kdfFromSecret_of_lt (hc.derive_lt eph (c.pubOf (bytesToNat sk)))] at hkeys
  injection hkeys with hk
  subst hk
  rw [@encryptECIES_eq c S _ m eph iv (c.pubOf (bytesToNat sk))
    (decodePoint_encodeCompressed hc _) (hc.derive_lt eph _)] at henc
  injection henc with hco
  subst hco
  have hkd : kdfFromSecret S (c.derive (bytesToNat sk) (c.pubOf eph))
      = .ok (deriveKeys S (c.derive eph (c.pubOf (bytesToNat sk)))) := by
    rw [hc.derive_comm]
    exact kdfFromSecret_of_lt (hc.derive_lt _ _)
  refine ⟨fun i k hik => ?_, fun i k hne => ?_, fun i k hne => ?_⟩
  · exact (decryptECIES_macFail (decodePoint_encodeCompressed hc _) hkd
      (equalConstTime_of_ne (flipBitAt_ne hik))).1
  · exact (decryptECIES_macFail (decodePoint_encodeCompressed hc _) hkd
      (equalConstTime_of_ne (Ne.symm hne))).1
  · exact (decryptECIES_macFail (decodePoint_encodeCompressed hc _) hkd
      (equalConstTime_of_ne (Ne.symm hne))).1

/-- C3 witness: flipping bit 0 of the first mac byte of the concrete valid
cipher object `co0` is rejected with the MAC-check error. -/
theorem tamper_single_bit_w :
    decryptECIES toyCurve toySym sk0 { co0 with mac := flipBitAt co0.mac 0 0 }
      = .error .macCheckFailed :=
  (tamper_single_bit toyCurve toySym toyCurveLaws sk0 m0 3 iv0 co0 keys0 rfl rfl).1
    0 0 (by decide)

/-- C3 counterexample: `co3` is the valid cipher object `co0` with a single
bit flipped in `ephemeralPK` (its prefix byte 0x02 becomes 0x06, a 33-byte
encoding `elliptic` rejects), and decryption fails with the
unknown-point-format error, not the MAC-mismatch error the claim
predicts. -/
theorem tamper_ephemeralPK_cex :
    encryptECIES toyCurve toySym pk0 m0 3 iv0 = .ok co0 ∧
    co3 = { co0 with ephemeralPK := flipBitAt co0.ephemeralPK 0 2 } ∧
    decryptECIES toyCurve toySym sk0 co3 = .error .unknownPointFormat ∧
    decryptECIES toyCurve toySym sk0 co3 ≠ .error .macCheckFailed := by
  refine ⟨rfl, rfl, rfl, fun h => ?_⟩
  have hr : decryptECIES toyCurve toySym sk0 co3 = .error .unknownPointFormat := rfl
  rw [hr] at h
  injection h with h3
  exact CryptoError.noConfusion h3

/-- C9 (amended): for a cipher object whose ephemeral public key parses and
whose key derivation succeeds, a mac field of length other than 32 always
trips the MAC check (the recomputed HMAC-SHA256 is 32 bytes and the
constant-time comparison rejects any length mismatch), with no decryption
performed (the result is independent of the block-cipher decryption). -/
theorem mac_length_mismatch (c : Curve) (S : SymPrims) (hS : SymLaws S)
    (sk : Buffer) (co : CipherObject) (Q : c.Point) (keys : SharedKeys)
    (hQ : decodePoint c co.ephemeralPK = .ok Q)
    (hkd : kdfFromSecret S (c.derive (bytesToNat sk) Q) = .ok keys)
    (hlen : co.mac.length ≠ 32) :
    decryptECIES c S sk co = .error .macCheckFailed ∧
      ∀ D, decryptECIES c { S with aesDec := D } sk co = .error .macCheckFailed :=
  decryptECIES_macFail hQ hkd (equalConstTime_of_length_ne (by
    rw [hS.hmac_len]
    exact hlen))

/-- C9 witness: the valid `co0` with its mac replaced by a 3-byte value is
rejected with the MAC-check error. -/
theorem mac_length_mismatch_w :
    decryptECIES toyCurve toySym sk0 { co0 with mac := [1, 2, 3] }
      = .error .macCheckFailed :=
  (mac_length_mismatch toyCurve toySym toySymLaws sk0 { co0 with mac := [1, 2, 3] }
    (toyCurve.pubOf 3) keys0 rfl rfl (by decide)).1

/-- C9 counterexample: a cipher object with a 3-byte mac AND an unparseable
ephemeral public key fails with the unknown-point-format error, not the
MAC-check error the claim predicts for every short-mac cipher object. -/
theorem mac_length_mismatch_cex :
    coBad.mac.length ≠ 32 ∧
    decryptECIES toyCurve toySym sk0 coBad = .error .unknownPointFormat ∧
    decryptECIES toyCurve toySym sk0 coBad ≠ .error .macCheckFailed := by
  refine ⟨by decide, rfl, fun h => ?_⟩
  have hr : decryptECIES toyCurve toySym sk0 coBad = .error .unknownPointFormat := rfl
  rw [hr] at h
  injection h with h3
  exact CryptoError.noConfusion h3

/-- C10: on decryption the MAC is computed over the canonical compressed
re-encoding of the parsed ephemeral public key, not over the received
bytes: two wire encodings that parse to the same curve point (for example
compressed and uncompressed) give identical decryption outcomes. -/
theorem ephemeral_encoding_canonical (c : Curve) (S : SymPrims) (sk : Buffer)
    (co : CipherObject) (b2 : Buffer) (Q : c.Point)
    (h1 : decodePoint c co.ephemeralPK = .ok Q)
    (h2 : decodePoint c b2 = .ok Q) :
    decryptECIES c S sk { co with ephemeralPK := b2 } = decryptECIES c S sk co := by
  unfold decryptECIES
  have e : ({ co with ephemeralPK := b2 } : CipherObject).ephemeralPK = b2 := rfl
  rw [e, h2, h1]

/-- C10 witness: replacing the compressed ephemeral key of `co0` by the
uncompressed encoding of the same toy point leaves the decryption outcome
unchanged. -/
theorem ephemeral_encoding_canonical_w :
    decryptECIES toyCurve toySym sk0 { co0 with ephemeralPK := unc0 }
      = decryptECIES toyCurve toySym sk0 co0 :=
  ephemeral_encoding_canonical toyCurve toySym sk0 co0 unc0 (toyCurve.pubOf 3) rfl rfl

/-- C4: for every key pair, a signature produced by `signECDSA` over content
`m` verifies (`.ok true`) under the matching compressed public key, and
`verifyECDSA` returns a clean `.ok false` — not an error — for that
well-formed signature checked against content with a different hash or
under a different public key.  Assumes the curve and ECDSA contracts. -/
theorem ecdsa_sign_verify (c : Curve) (S : SymPrims) (G : SigPrims c)
    (hc : CurveLaws c) (hG : SigLaws c G) (sk : Buffer) (m : Content) :
    verifyECDSA c S G m (c.encodeCompressed (c.pubOf (bytesToNat sk)))
      (signECDSA c S G sk m).signature = .ok true ∧
    (∀ m2 : Content, S.sha256 m2.toBuffer ≠ S.sha256 m.toBuffer →
      verifyECDSA c S G m2 (c.encodeCompressed (c.pubOf (bytesToNat sk)))
        (signECDSA c S G sk m).signature = .ok false) ∧
    (∀ sk2 : Buffer, c.pubOf (bytesToNat sk2) ≠ c.pubOf (bytesToNat sk) →
      verifyECDSA c S G m (c.encodeCompressed (c.pubOf (bytesToNat sk2)))
        (signECDSA c S G sk m).signature = .ok false) := by
  refine ⟨?_, fun m2 hne => ?_, fun sk2 hne => ?_⟩
  · unfold verifyECDSA
    rw [decodePoint_encodeCompressed hc]
    dsimp only
    exact hG.sign_valid (bytesToNat sk) (S.sha256 m.toBuffer)
  · unfold verifyECDSA
    rw [decodePoint_encodeCompressed hc]
    dsimp only
    exact hG.wrong_hash (bytesToNat sk) (S.sha256 m.toBuffer) (S.sha256 m2.toBuffer) hne
  · unfold verifyECDSA
    rw [decodePoint_encodeCompressed hc]
    dsimp only
    exact hG.wrong_key (bytesToNat sk) (bytesToNat sk2) (S.sha256 m.toBuffer) hne

/-- C4 witness: a concrete sign/verify round trip plus rejections under
different content and under a different key on the toy instantiation. -/
theorem ecdsa_sign_verify_w :
    verifyECDSA toyCurve toySym toySig m0 pk0
      (signECDSA toyCurve toySym toySig sk0 m0).signature = .ok true ∧
    verifyECDSA toyCurve toySym toySig (Content.buf [1]) pk0
      (signECDSA toyCurve toySym toySig sk0 m0).signature = .ok false ∧
    verifyECDSA toyCurve toySym toySig m0
      (toyCurve.encodeCompressed (toyCurve.pubOf (bytesToNat [1])))
      (signECDSA toyCurve toySym toySig sk0 m0).signature = .ok false := by
  have h := ecdsa_sign_verify toyCurve toySym toySig toyCurveLaws toySigLaws sk0 m0
  exact ⟨h.1, h.2.1 (Content.buf [1]) (by decide),
    h.2.2 [1] (fun hp => absurd (congrArg Fin.val hp) (by decide))⟩

/-- C5: `sharedSecretToKeys` is a total deterministic function: it hashes
the secret with the 64-byte-output hash, the encryption key is exactly the
first 32 bytes of the digest, the MAC key exactly the remaining 32 bytes,
both of length 32, and equal inputs give equal outputs. -/
theorem sharedSecretToKeys_spec (S : SymPrims) (hS : SymLaws S) (s : Buffer) :
    sharedSecretToKeys S s =
      { encryptionKey := (S.sha512 s).take 32, hmacKey := (S.sha512 s).drop 32 } ∧
    (sharedSecretToKeys S s).encryptionKey.length = 32 ∧
    (sharedSecretToKeys S s).hmacKey.length = 32 ∧
    (∀ s2, s2 = s → sharedSecretToKeys S s2 = sharedSecretToKeys S s) := by
  refine ⟨rfl, ?_, ?_, fun s2 h => by rw [h]⟩
  · show ((S.sha512 s).take 32).length = 32
    rw [List.length_take, hS.sha512_len]
    norm_num
  · show ((S.sha512 s).drop 32).length = 32
    rw [List.length_drop, hS.sha512_len]

/-- C5 witness: the key split evaluated on a concrete secret. -/
theorem sharedSecretToKeys_spec_w :
    sharedSecretToKeys toySym [1, 2] =
      { encryptionKey := (toySym.sha512 [1, 2]).take 32
        hmacKey := (toySym.sha512 [1, 2]).drop 32 } ∧
    (sharedSecretToKeys toySym [1, 2]).encryptionKey.length = 32 ∧
    (sharedSecretToKeys toySym [1, 2]).hmacKey.length = 32 := by
  have h := sharedSecretToKeys_spec toySym toySymLaws [1, 2]
  exact ⟨h.1, h.2.1, h.2.2.1⟩

/-- C6: when the natural hex encoding of the input is at most 64 digits,
`getHexFromBN` returns exactly 64 hex digits, namely the left-zero-padded
natural encoding (so the value is preserved); when the natural encoding
exceeds 64 digits it fails with the encoding error. -/
theorem getHexFromBN_spec (n : Nat) :
    ((hexDigits n).length ≤ 64 →
      getHexFromBN n = .ok (padHex n) ∧ (padHex n).length = 64 ∧
        hexToNat (padHex n) = n) ∧
    (64 < (hexDigits n).length → getHexFromBN n = .error .encodingError) :=
  ⟨fun h => ⟨getHexFromBN_of_le h, padHex_length h, hexToNat_padHex n⟩,
    fun h => getHexFromBN_of_gt h⟩

/-- C6 witness: a small input is padded to 64 digits, and the first number
needing 65 digits is rejected. -/
theorem getHexFromBN_spec_w :
    (getHexFromBN 5 = .ok (padHex 5) ∧ (padHex 5).length = 64 ∧
      hexToNat (padHex 5) = 5) ∧
    getHexFromBN (16 ^ 64) = .error .encodingError :=
  ⟨(getHexFromBN_spec 5).1 (by decide), (getHexFromBN_spec (16 ^ 64)).2 (by decide)⟩

/-- C8: `verifyECDSA` propagates input-validation failures as errors rather
than returning false: a public key `decodePoint` rejects makes it fail with
that parse error, and a signature the verification primitive rejects as
malformed DER makes it fail with that error. -/
theorem verify_malformed_input (c : Curve) (S : SymPrims) (G : SigPrims c)
    (content : Content) (publicKey dsig : Buffer) :
    (∀ e, decodePoint c publicKey = .error e →
      verifyECDSA c S G content publicKey dsig = .error e) ∧
    (∀ P e, decodePoint c publicKey = .ok P →
      G.verifyRaw P (S.sha256 content.toBuffer) dsig = .error e →
      verifyECDSA c S G content publicKey dsig = .error e) := by
  constructor
  · intro e he
    unfold verifyECDSA
    rw [he]
  · intro P e hP hv
    unfold verifyECDSA
    rw [hP]
    dsimp only
    exact hv

/-- C8 witness: a one-byte public key fails with the unknown-point-format
error, and a tagless signature fails with the DER parse error, neither
returning false. -/
theorem verify_malformed_input_w :
    verifyECDSA toyCurve toySym toySig m0 [5] [] = .error .unknownPointFormat ∧
    verifyECDSA toyCurve toySym toySig m0 pk0 [1, 2] = .error .invalidSignature :=
  ⟨(verify_malformed_input toyCurve toySym toySig m0 [5] []).1 .unknownPointFormat rfl,
    (verify_malformed_input toyCurve toySym toySig m0 pk0 [1, 2]).2
      (toyCurve.pubOf (bytesToNat sk0)) .invalidSignature rfl rfl⟩
